import Mathlib

/-!
Shallow embedding of the translation-editor core in `src/script.js`
(downthemall/translate): string normalization, placeholder validation,
the per-entry validation state machine, catalog construction, aggregate
summary and debounced persistence, serialization (`toJSON`) and the
work-snapshot merge step (`loadLocales`).

The helper module `sorting.js` (`sort`, `sorted`, `naturalCaseCompare`)
is imported by `script.js` but is not part of the sources here; those
three functions are modelled from the specification (natural comparator,
stable multi-key sorter) and are marked as such in their doc comments.

Strings are modelled as Lean `String` (lists of Unicode characters);
JavaScript string operations used by the code (`trim`, `includes`,
`replace` with a string pattern, `toUpperCase` on ASCII names, the
regex scan `/\$(.+?)\$/g`) are given explicit executable definitions.
JavaScript objects that act as string-keyed maps are modelled as
association lists in property-insertion order.
-/

namespace Translate

/-- Whitespace as recognized by JavaScript `String.prototype.trim`
(ASCII whitespace, NBSP, line/paragraph separators, BOM). -/
def isWS (c : Char) : Bool :=
  c = ' ' || c = '\t' || c = '\n' || c = '\r' ||
  c.toNat = 0x0B || c.toNat = 0x0C || c.toNat = 0xA0 ||
  c.toNat = 0x2028 || c.toNat = 0x2029 || c.toNat = 0xFEFF

/-- JavaScript `trim` on a character list: drop whitespace from both ends. -/
def trimL (l : List Char) : List Char :=
  ((l.dropWhile isWS).reverse.dropWhile isWS).reverse

/-- JavaScript `String.prototype.trim`. -/
def trimS (s : String) : String :=
  ⟨trimL s.data⟩

/-- JavaScript `String.prototype.includes` on character lists:
`sub` occurs contiguously inside `l`. -/
def inclL (l sub : List Char) : Bool :=
  sub.isPrefixOf l ||
    match l with
    | [] => false
    | _ :: t => inclL t sub

/-- JavaScript `String.prototype.includes`. -/
def inclS (s sub : String) : Bool :=
  inclL s.data sub.data

/-- JavaScript `String.prototype.replace` with a *string* pattern:
replace only the first occurrence of `pat` (an empty pattern matches at
the start of the string, as in JavaScript). -/
def replaceFirst (l pat rep : List Char) : List Char :=
  if pat.isPrefixOf l then rep ++ l.drop pat.length
  else
    match l with
    | [] => []
    | c :: cs => c :: replaceFirst cs pat rep

/-- The characters of the literal three-dot sequence `"..."`. -/
def dots : List Char := ['.', '.', '.']

/-- The single horizontal-ellipsis character. -/
def ell : List Char := ['…']

/-- The normalization `Item.translated` applies to the raw field value
(line 75 of `script.js`): `value.trim().replace("...", "…")`. -/
def normalizeL (l : List Char) : List Char :=
  replaceFirst (trimL l) dots ell

/-- String form of `normalizeL`. -/
def normalizeS (s : String) : String :=
  ⟨normalizeL s.data⟩

/-- Line terminators, which JavaScript regex `.` does not match. -/
def isLineTerm (c : Char) : Bool :=
  c = '\n' || c = '\r' || c.toNat = 0x2028 || c.toNat = 0x2029

/-- One left-to-right pass implementing the global scan of the lazy
regex `/\$(.+?)\$/g` used by `PlaceholderItem.computeErrors` (line 158
of `script.js`).  The second argument is `none` outside a candidate
match, and `some acc` when an opening `$` has been read and `acc` holds
the group characters consumed so far.  A `$` read while the group is
still empty becomes the first group character (the lazy group needs at
least one character); a `$` read after that closes the match; a line
terminator aborts the candidate (any `$` absorbed into `acc` can be
shown to open no successful match either, so scanning resumes after the
terminator, which is what the regex engine's retry-by-one does). -/
def scanGo : List Char → Option (List Char) → List String
  | [], _ => []
  | c :: cs, none =>
    if c = '$' then scanGo cs (some []) else scanGo cs none
  | c :: cs, some acc =>
    if isLineTerm c then scanGo cs none
    else if c = '$' then
      match acc with
      | [] => scanGo cs (some ['$'])
      | _ :: _ => (⟨acc⟩ : String) :: scanGo cs none
    else scanGo cs (some (acc ++ [c]))

/-- Names of all delimited `$…$` tokens occurring in `s`, in order of
appearance, per the regex scan in `PlaceholderItem.computeErrors`. -/
def scanTokens (s : String) : List String :=
  scanGo s.data none

/-- ASCII model of JavaScript `String.prototype.toUpperCase`, as applied
to placeholder names in the `PlaceholderItem` constructor (line 144). -/
def upperS (s : String) : String :=
  ⟨s.data.map Char.toUpper⟩

/-- The set `new Set(l)` keyed by string equality: deduplicate, keeping the
first occurrence of each element (JavaScript sets iterate in
first-insertion order; re-adding an element does not move it). -/
def dedup : List String → List String
  | [] => []
  | x :: xs => x :: (dedup xs).filter (fun y => y ≠ x)

end Translate

namespace Translate

/-- A maximal-run token of an identifier: either a run of consecutive
decimal digits (first digit and the following digits kept separately so
the run is never empty) or a single non-digit character.
Modelled from the spec: part of `sorting.js`'s `naturalCaseCompare`
(imported by `script.js` but not among the sources), §4.1 of the spec. -/
inductive Tok where
  | num (d : Char) (ds : List Char)
  | ch (c : Char)
deriving DecidableEq

/-- Numeric value of a digit run. -/
def digitsVal (l : List Char) : Nat :=
  l.foldl (fun n c => n * 10 + (c.toNat - 48)) 0

/-- Tokenize a character list into digit runs and single characters;
the accumulator holds the digits of the currently open run.
Modelled from the spec: `sorting.js`'s natural comparator splits a
string into maximal digit runs and the remaining characters (§4.1). -/
def toksGo : List Char → Option (Char × List Char) → List Tok
  | [], none => []
  | [], some (d, ds) => [.num d ds]
  | c :: cs, none =>
    if c.isDigit then toksGo cs (some (c, []))
    else .ch c :: toksGo cs none
  | c :: cs, some (d, ds) =>
    if c.isDigit then toksGo cs (some (d, ds ++ [c]))
    else .num d ds :: .ch c :: toksGo cs none

/-- Tokenization of a character list. -/
def toks (l : List Char) : List Tok :=
  toksGo l none

/-- Compare two tokens: digit runs by numeric value, anything else by
code point of the leading character.
Modelled from the spec: §4.1, runs of consecutive digits are compared
by their numeric value, all other characters by code point. -/
def tokCmp : Tok → Tok → Ordering
  | .num a as, .num b bs => compare (digitsVal (a :: as)) (digitsVal (b :: bs))
  | .num a _, .ch c => compare a c
  | .ch c, .num b _ => compare c b
  | .ch a, .ch b => compare a b

/-- Lexicographic comparison of token lists (a shorter list that is a
prefix of the other compares first). -/
def toksCmp : List Tok → List Tok → Ordering
  | [], [] => .eq
  | [], _ :: _ => .lt
  | _ :: _, [] => .gt
  | x :: xs, y :: ys => (tokCmp x y).then (toksCmp xs ys)

/-- Modelled from the spec: `sorting.js`'s `naturalCaseCompare` (§4.1),
a total order over identifier strings in which runs of consecutive
digits compare by numeric value and all other characters by code point. -/
def naturalCmp (a b : String) : Ordering :=
  toksCmp (toks a.data) (toks b.data)

/-- The `<=` test derived from an `Ordering`-valued comparator. -/
def cmpLE (cmp : α → α → Ordering) (a b : α) : Bool :=
  match cmp a b with
  | .gt => false
  | _ => true

/-- Insert `a` into `l`, placing it after every element `le`-below or
tied with it, so that insertion from the left is stable.
Modelled from the spec: part of `sorting.js`'s stable sorter (§4.2). -/
def orderedInsert (le : α → α → Bool) (a : α) : List α → List α
  | [] => [a]
  | b :: l => if le b a then b :: orderedInsert le a l else a :: b :: l

/-- Stable insertion sort: elements are inserted left to right, each
after its ties, so equal-key items keep their input order.
Modelled from the spec: `sorting.js`'s `sort`/`sorted` stable multi-key
sorter (§4.2); it produces a new sequence and never mutates its input. -/
def insertionSort (le : α → α → Bool) (l : List α) : List α :=
  l.foldl (fun acc x => orderedInsert le x acc) []

/-- Comparison of booleans with `true` first, as produced by the
negated-boolean sort keys `-id.startsWith("language")` and
`-!entry.messageTranslated` in `script.js` (lines 178–179, 234):
`-true = -1` sorts before `-false = 0`. -/
def boolFirst (a b : Bool) : Ordering :=
  match a, b with
  | true, false => .lt
  | false, true => .gt
  | _, _ => .eq

/-- The test `id.startsWith("language")`, on the character list model. -/
def startsWithLanguage (s : String) : Bool :=
  "language".data.isPrefixOf s.data

end Translate

namespace Translate

/-- One value of the base catalog mapping as fetched by
`loadRemoteLocale` and seeded by `loadLocales`: `message`,
optional `description`, optional `placeholders`
(modelled by its declared key names, in property-insertion order),
and the optional seeded `messageTranslated`. -/
structure EntryData where
  message : String
  description : Option String
  placeholders : Option (List String)
  messageTranslated : Option String
deriving DecidableEq

/-- One value of a work-snapshot mapping as consumed by the merge loop
in `loadLocales` (lines 257–264): only its `message` field is read, and
a missing or empty `message` is falsy. -/
structure WorkEntry where
  message : Option String
deriving DecidableEq

/-- Truthiness of a work entry's `message` (the `!entry.message` test
at line 259 skips both a missing and an empty message). -/
def WorkEntry.truthyMessage : WorkEntry → Bool
  | ⟨some m⟩ => m ≠ ""
  | ⟨none⟩ => false

/-- The status icon/color pair `Item.validate` writes to the status
element: `unset` before the first validation, `untouched` = 🤚 yellow,
`valid` = ✓ green, `validUnchanged` = ✓ yellow, `invalid` = ❗ red. -/
inductive Status where
  | unset
  | untouched
  | valid
  | validUnchanged
  | invalid
deriving DecidableEq

/-- The observable per-entry state of an `Item` (or `PlaceholderItem`
when `placeholders` is present): identity and source data, the current
value of the translation input field (`raw`), the last stored error
count (`this.errors`) and the displayed status. -/
structure Item where
  id : String
  message : String
  description : Option String
  placeholders : Option (List String)
  raw : String
  errors : Nat
  status : Status
deriving DecidableEq

/-- Accessor `Item.translated` (line 75): the field value trimmed with the first
`"..."` replaced by `"…"`. -/
def translatedOf (it : Item) : String :=
  normalizeS it.raw

/-- Accessor `Item.isTranslated` (line 79). -/
def isTranslated (it : Item) : Bool :=
  translatedOf it ≠ ""

/-- Accessor `Item.isUnchanged` (line 83). -/
def isUnchanged (it : Item) : Bool :=
  it.message = translatedOf it

/-- The `holders` set built by the `PlaceholderItem` constructor
(lines 143–144): declared placeholder names uppercased, deduplicated in
insertion order. -/
def holdersOf (it : Item) : List String :=
  match it.placeholders with
  | none => []
  | some ks => dedup (ks.map upperS)

/-- The delimited token for a placeholder name. -/
def tokOf (h : String) : String :=
  "$" ++ h ++ "$"

/-- The "not present" diagnostic pushed at line 155. -/
def notPresentMsg (h : String) : String :=
  "Placeholder \"$" ++ h ++ "$\" not present"

/-- The "is invalid" diagnostic pushed at line 160. -/
def invalidMsg (p : String) : String :=
  "Placeholder \"$" ++ p ++ "$\" is invalid"

/-- Method `computeErrors` — the base `Item` returns no errors (line 87);
`PlaceholderItem` (lines 147–164) first pushes one "not present" error
per declared holder whose exact token is absent from the translated
text, then scans the text and pushes one "is invalid" error per found
token whose name is not in the holder set. -/
def computeErrors (it : Item) : List String :=
  match it.placeholders with
  | none => []
  | some _ =>
    if ¬ isTranslated it then []
    else
      let t := translatedOf it
      let e1 := (holdersOf it).foldl
        (fun acc h => if inclS t (tokOf h) then acc else acc ++ [notPresentMsg h]) []
      (scanTokens t).foldl
        (fun acc p => if (holdersOf it).contains p then acc else acc ++ [invalidMsg p]) e1

/-- Method `Item.validate` (lines 90–126) as a state transformer on the item's
observable fields: an untranslated item is displayed 🤚 and the method
returns early (leaving `this.errors` as it was); otherwise the error
count is stored, a nonzero count displays ❗, an unchanged translation
✓ yellow and a changed one ✓ green. -/
def validate (it : Item) : Item :=
  if ¬ isTranslated it then { it with status := .untouched }
  else
    let errs := computeErrors it
    let it' : Item := { it with errors := errs.length }
    if errs.length ≠ 0 then { it' with status := .invalid }
    else if isUnchanged it' then { it' with status := .validUnchanged }
    else { it' with status := .valid }

/-- The `Item` constructor (lines 47–72): copies the entry data, seeds
the translation field with `messageTranslated.trim()` when that is
truthy (the field of a fresh input element is `""`), and initializes
`this.errors = 0`; nothing is written to the status element yet. -/
def mkItem (p : String × EntryData) : Item :=
  { id := p.1
    message := p.2.message
    description := p.2.description
    placeholders := p.2.placeholders
    raw := match p.2.messageTranslated with
      | some m => if m = "" then "" else trimS m
      | none => ""
    errors := 0
    status := .unset }

/-- The serialized form of one entry, `Item.toJSON` (lines 128–137):
`{message, description, placeholders?}` where `placeholders` is present
exactly when the item carries a declaration (a `JSON.stringify` of the
result drops `undefined` fields). -/
structure ItemJSON where
  message : String
  description : Option String
  placeholders : Option (List String)
deriving DecidableEq

/-- Method `Item.toJSON`: the message is the *normalized* translated text and
the placeholders are the originally declared data, not recomputed. -/
def itemToJSON (it : Item) : ItemJSON :=
  { message := translatedOf it
    description := it.description
    placeholders := it.placeholders }

/-- The three-part sort key used when building a `Locale`
(lines 176–181): language-prefixed ids first, then entries without a
truthy `messageTranslated`, then natural order on the id. -/
def entryCmp (a b : String × EntryData) : Ordering :=
  (boolFirst (startsWithLanguage a.1) (startsWithLanguage b.1)).then
    ((boolFirst (¬ (a.2.messageTranslated.getD "" ≠ "")) (¬ (b.2.messageTranslated.getD "" ≠ ""))).then
      (naturalCmp a.1 b.1))

/-- Construction of the `Locale`'s item list (lines 175–189): sort the
base mapping's entries, build an `Item` (a `PlaceholderItem` exactly
when the entry declares placeholders — the model dispatches inside
`computeErrors`) for each, then validate every item. -/
def buildLocale (base : List (String × EntryData)) : List Item :=
  ((insertionSort (cmpLE entryCmp) base).map mkItem).map validate

/-- The export sort key of `Locale.toJSON` (line 234) as an order on
ids: language-prefixed ids first, then natural order. -/
def exportIdCmp (x y : String) : Ordering :=
  (boolFirst (startsWithLanguage x) (startsWithLanguage y)).then (naturalCmp x y)

/-- The export sort key of `Locale.toJSON` (line 234): the key tuple
`[-id.startsWith("language"), id]` depends only on the item's id. -/
def exportCmp (a b : Item) : Ordering :=
  exportIdCmp a.id b.id

/-- Method `Locale.toJSON` (lines 229–238): keep only the translated items,
sort them by the export key, and emit the association list
`id ↦ Item.toJSON` in that order. -/
def localeToJSON (items : List Item) : List (String × ItemJSON) :=
  (insertionSort (cmpLE exportCmp) (items.filter isTranslated)).map
    (fun i => (i.id, itemToJSON i))

/-- The aggregate numbers computed by `Locale.update` (lines 204–214):
translated count, total count, error total and unchanged count over the
translated items. -/
structure Summary where
  tcount : Nat
  total : Nat
  errors : Nat
  unchanged : Nat
deriving DecidableEq

/-- The aggregate recompute of `Locale.update`. -/
def summaryOf (items : List Item) : Summary :=
  let tr := items.filter isTranslated
  { tcount := tr.length
    total := items.length
    errors := tr.foldl (fun p c => p + c.errors) 0
    unchanged := tr.foldl (fun p c => p + (if isUnchanged c then 1 else 0)) 0 }

/-- The mutation `baseLocale[id].messageTranslated = entry.message`
(line 262) on the association-list model: rewrite the entry with key
`id`, leaving every other pair alone. -/
def setMT (b : List (String × EntryData)) (id m : String) : List (String × EntryData) :=
  b.map (fun q => if q.1 = id then (q.1, { q.2 with messageTranslated := some m }) else q)

/-- One iteration of the merge loop of `loadLocales` (lines 258–263):
skip the work pair unless its id is a base key (`id in baseLocale`) and
its message is truthy, otherwise seed the base entry. -/
def mergeStep (b : List (String × EntryData)) (p : String × WorkEntry) :
    List (String × EntryData) :=
  match b.lookup p.1 with
  | none => b
  | some _ =>
    match p.2.message with
    | none => b
    | some m => if m = "" then b else setMT b p.1 m

/-- The merge loop of `loadLocales` (lines 257–264): for each work id
in order, if the id exists in the base and the work message is truthy,
set the base entry's `messageTranslated` to that message. -/
def mergeWork (base : List (String × EntryData)) (work : List (String × WorkEntry)) :
    List (String × EntryData) :=
  work.foldl mergeStep base

/-- Externally observable effects of the deferred `Locale.update`
callback: a successful `localforage.setItem` persisting the serialized
catalog form, the rendering of the aggregate status line (carried here
as the raw numbers), and a caught exception reported via
`console.error` in the `catch` arm of `Locale.update`. -/
inductive Effect where
  | persisted (data : List (String × ItemJSON))
  | renderedStatus (s : Summary)
  | loggedError
deriving DecidableEq

/-- State of one `Locale` together with its private `debounce` timer
(`this.update = debounce(this.update.bind(this), 0)`, line 169):
the item list, the timer box (`none` when no callback is pending,
`some ()` when one is — `update` is always called with no arguments),
the number of `setTimeout` callbacks currently queued on the event
loop, and the log of effects performed so far. -/
structure LocState where
  items : List Item
  timer : Option Unit
  pendingTimeouts : Nat
  effects : List Effect
deriving DecidableEq

/-- One call of the debounced `this.update()` (lines 13–35): if a
callback is pending only the stored arguments are refreshed; otherwise
a zero-delay callback is scheduled and the argument box created. -/
def callUpdate (st : LocState) : LocState :=
  match st.timer with
  | some _ => { st with timer := some () }
  | none => { st with timer := some (), pendingTimeouts := st.pendingTimeouts + 1 }

/-- The scheduled `setTimeout` callback firing (lines 20–32) followed
by the body of `Locale.update` (lines 201–227): with no argument box
the callback returns at once; otherwise the box is cleared and `update`
runs — it first persists the serialized catalog and then renders the
status line, and if persistence fails the exception is caught and
logged, skipping the render. -/
def fireTimeout (persistOk : Bool) (st : LocState) : LocState :=
  match st.timer with
  | none => { st with pendingTimeouts := st.pendingTimeouts - 1 }
  | some _ =>
    let st' : LocState :=
      { st with timer := none, pendingTimeouts := st.pendingTimeouts - 1 }
    if persistOk then
      { st' with effects := st'.effects ++
          [.persisted (localeToJSON st'.items), .renderedStatus (summaryOf st'.items)] }
    else
      { st' with effects := st'.effects ++ [.loggedError] }

/-- Replace the element at index `i` (out-of-range indices are a no-op,
JavaScript input events always target an existing item). -/
def modifyAt (f : α → α) : List α → Nat → List α
  | [], _ => []
  | x :: xs, 0 => f x :: xs
  | x :: xs, n + 1 => x :: modifyAt f xs n

/-- A user edit of entry `e.1`'s translation field to `e.2`: the input
event handler re-runs `validate` on that item (line 67). -/
def editItem (items : List Item) (e : Nat × String) : List Item :=
  modifyAt (fun it => validate { it with raw := e.2 }) items e.1

/-- One synchronous edit step of the live catalog: the edit re-validates
the item, and `validate` ends with `this.locale.updated(this)`
(line 125) — reached only when the item is translated, because an
untranslated item returns early at line 96 — which calls the debounced
`update`. -/
def editStep (st : LocState) (e : Nat × String) : LocState :=
  let items' := editItem st.items e
  let st' : LocState := { st with items := items' }
  if normalizeS e.2 ≠ "" then callUpdate st' else st'

/-- The generic debounce closure of `script.js` lines 13–35, kept
abstract in the argument type: `timer` is the captured argument box,
`scheduled` counts queued callbacks and `runs` logs every execution of
the wrapped function with the arguments it received. -/
structure DebSt (α : Type) where
  timer : Option α
  scheduled : Nat
  runs : List α

/-- A call of the debounced function with arguments `a`. -/
def debCall (s : DebSt α) (a : α) : DebSt α :=
  match s.timer with
  | some _ => { s with timer := some a }
  | none => { s with timer := some a, scheduled := s.scheduled + 1 }

/-- The scheduled callback firing: with no box it returns, otherwise it
clears the box and runs the wrapped function on the stored arguments. -/
def debFire (s : DebSt α) : DebSt α :=
  match s.timer with
  | none => { s with scheduled := s.scheduled - 1 }
  | some a => { timer := none, scheduled := s.scheduled - 1, runs := s.runs ++ [a] }

/-- A `PlaceholderItem` whose source declares the single placeholder
name `url` (so the holder set is `{URL}`), with translation field `raw`. -/
def itemURL (raw : String) : Item :=
  { id := "x"
    message := "Visit $URL$ here"
    description := none
    placeholders := some ["url"]
    raw := raw
    errors := 0
    status := .unset }

/-- A `PlaceholderItem` whose declared keys `aa`, `bb`, `AA` collide
after uppercasing: the holder set iterates `AA, BB`. -/
def itemAABB : Item :=
  { id := "y"
    message := "m"
    description := none
    placeholders := some ["aa", "bb", "AA"]
    raw := "hi"
    errors := 0
    status := .unset }

/-- A fold that appends `f x` for every `x` failing the test `p`
collects exactly the filtered-and-mapped list, in input order. -/
theorem foldl_pushIf (p : α → Bool) (f : α → String) (l : List α) (init : List String) :
    l.foldl (fun acc x => if p x then acc else acc ++ [f x]) init
      = init ++ (l.filter (fun x => !p x)).map f := by
  induction l generalizing init with
  | nil => simp
  | cons x xs ih =>
    by_cases hx : p x
    · simp [List.foldl_cons, hx, ih]
    · simp only [List.foldl_cons, if_neg hx, ih, List.filter_cons]
      simp [hx]

/-- Method `PlaceholderItem.computeErrors` on a translated item is the list of
"not present" diagnostics for the declared holders whose token is
absent, in holder-set iteration order, followed by the "is invalid"
diagnostics for the scanned tokens that are not declared, in order of
appearance. -/
theorem computeErrors_eq (it : Item) (hp : it.placeholders.isSome) (ht : isTranslated it) :
    computeErrors it =
      ((holdersOf it).filter
          (fun h => !inclS (translatedOf it) (tokOf h))).map notPresentMsg
        ++ ((scanTokens (translatedOf it)).filter
          (fun p => !(holdersOf it).contains p)).map invalidMsg := by
  rcases hps : it.placeholders with _ | ks
  · rw [hps] at hp; simp at hp
  · simp only [computeErrors, hps, ht, not_true_eq_false, if_false]
    rw [foldl_pushIf, foldl_pushIf]
    simp

/-- C1. For every `PlaceholderItem`, `computeErrors` on a translated
text emits one "Placeholder not present" error for each declared holder
whose exact delimited token is absent (in holder-set iteration order),
followed by one "Placeholder is invalid" error for each delimited token
found in the text whose name is not declared (in order of appearance);
in particular, for declared names `{URL}`, a translation with the URL
token and no others has no errors (errorCount 0), omitting it gives
exactly one "not present" error, a spurious `$NAME$` gives exactly one
"invalid" error, and both defects give the two errors in
(not-present, invalid) order; declared keys that collide after
uppercasing keep the holder set's first-insertion iteration order, as a
JavaScript `Set` does. -/
theorem c1_placeholder_error_order :
    (∀ it : Item, it.placeholders.isSome → isTranslated it →
      computeErrors it =
        ((holdersOf it).filter
            (fun h => !inclS (translatedOf it) (tokOf h))).map notPresentMsg
          ++ ((scanTokens (translatedOf it)).filter
            (fun p => !(holdersOf it).contains p)).map invalidMsg) ∧
    computeErrors (itemURL "Visit $URL$ now") = [] ∧
    (validate (itemURL "Visit $URL$ now")).errors = 0 ∧
    computeErrors (itemURL "Visit now") = [notPresentMsg "URL"] ∧
    computeErrors (itemURL "Visit $URL$ and $NAME$") = [invalidMsg "NAME"] ∧
    computeErrors (itemURL "Visit $NAME$ now")
      = [notPresentMsg "URL", invalidMsg "NAME"] ∧
    holdersOf itemAABB = ["AA", "BB"] ∧
    computeErrors itemAABB = [notPresentMsg "AA", notPresentMsg "BB"] :=
  ⟨computeErrors_eq, by decide, by decide, by decide, by decide, by decide, by decide,
    by decide⟩

/-- Closed instance of the quantified part of `c1_placeholder_error_order`
at a concrete defective translation. -/
theorem c1_placeholder_error_order_witness :
    (itemURL "Visit $NAME$ now").placeholders.isSome ∧
    isTranslated (itemURL "Visit $NAME$ now") ∧
    computeErrors (itemURL "Visit $NAME$ now") =
      ((holdersOf (itemURL "Visit $NAME$ now")).filter
          (fun h => !inclS (translatedOf (itemURL "Visit $NAME$ now")) (tokOf h))).map notPresentMsg
        ++ ((scanTokens (translatedOf (itemURL "Visit $NAME$ now"))).filter
          (fun p => !(holdersOf (itemURL "Visit $NAME$ now")).contains p)).map invalidMsg :=
  ⟨by decide, by decide,
    c1_placeholder_error_order.1 (itemURL "Visit $NAME$ now") (by decide) (by decide)⟩

/-- A prefix is no longer than the whole list. -/
theorem isPrefixOf_length {sub l : List Char} (h : sub.isPrefixOf l = true) :
    sub.length ≤ l.length := by
  induction sub generalizing l with
  | nil => simp
  | cons a as ih =>
    cases l with
    | nil => simp [List.isPrefixOf] at h
    | cons b bs =>
      simp only [List.isPrefixOf, Bool.and_eq_true] at h
      simpa using ih h.2

/-- A prefix of the same length is the whole list. -/
theorem isPrefixOf_eq_of_length {sub l : List Char} (h : sub.isPrefixOf l = true)
    (hl : sub.length = l.length) : sub = l := by
  induction sub generalizing l with
  | nil => cases l with
    | nil => rfl
    | cons b bs => simp at hl
  | cons a as ih =>
    cases l with
    | nil => simp [List.isPrefixOf] at h
    | cons b bs =>
      simp only [List.isPrefixOf, Bool.and_eq_true, beq_iff_eq] at h
      simp only [List.length_cons, Nat.add_right_cancel_iff] at hl
      rw [h.1, ih h.2 hl]

/-- A contiguous occurrence is no longer than the text. -/
theorem inclL_length {l sub : List Char} (h : inclL l sub = true) :
    sub.length ≤ l.length := by
  induction l with
  | nil =>
    rw [inclL] at h
    simp only [Bool.or_eq_true] at h
    rcases h with h | h
    · exact isPrefixOf_length h
    · simp at h
  | cons c cs ih =>
    rw [inclL] at h
    simp only [Bool.or_eq_true] at h
    rcases h with h | h
    · exact isPrefixOf_length h
    · exact Nat.le_trans (ih h) (by simp)

/-- An `includes` between equal-length strings is equality. -/
theorem inclL_eq_of_length {l sub : List Char} (h : inclL l sub = true)
    (hl : sub.length = l.length) : sub = l := by
  cases l with
  | nil =>
    rw [inclL] at h
    simp only [Bool.or_eq_true] at h
    rcases h with h | h
    · exact isPrefixOf_eq_of_length h hl
    · simp at h
  | cons c cs =>
    rw [inclL] at h
    simp only [Bool.or_eq_true] at h
    rcases h with h | h
    · exact isPrefixOf_eq_of_length h hl
    · have h1 := inclL_length h
      rw [List.length_cons] at hl
      omega

/-- The scan emits the pending group as one token at the next `$` and
continues after it, as long as the group characters are ordinary. -/
theorem scanGo_closes (wl : List Char) (hok : ∀ c ∈ wl, c ≠ '$' ∧ isLineTerm c = false) :
    ∀ acc : List Char, acc ++ wl ≠ [] → ∀ rest : List Char,
      scanGo (wl ++ '$' :: rest) (some acc)
        = (⟨acc ++ wl⟩ : String) :: scanGo rest none := by
  induction wl with
  | nil =>
    intro acc hne rest
    simp only [List.append_nil] at hne ⊢
    cases acc with
    | nil => exact absurd rfl hne
    | cons a as => simp [scanGo, isLineTerm]
  | cons c cl ih =>
    intro acc _ rest
    have hc := hok c (by simp)
    have hok' : ∀ x ∈ cl, x ≠ '$' ∧ isLineTerm x = false := fun x hx => hok x (by simp [hx])
    have : scanGo ((c :: cl) ++ '$' :: rest) (some acc)
        = scanGo (cl ++ '$' :: rest) (some (acc ++ [c])) := by
      simp [scanGo, hc.1, hc.2]
    rw [this, ih hok' (acc ++ [c]) (by simp) rest]
    simp

/-- Scanning a text that is exactly one delimited token yields exactly
that token's name. -/
theorem scanTokens_single (w : String) (hne : w.data ≠ [])
    (hok : ∀ c ∈ w.data, c ≠ '$' ∧ isLineTerm c = false)
    (t : String) (ht : t.data = '$' :: w.data ++ ['$']) :
    scanTokens t = [w] := by
  rw [scanTokens, ht]
  have : scanGo ('$' :: w.data ++ ['$']) none = scanGo (w.data ++ ['$']) (some []) := by
    simp [scanGo]
  rw [this]
  have h2 := scanGo_closes w.data hok [] (by simpa using hne) []
  simp only [List.nil_append] at h2
  rw [h2]
  simp [scanGo]

/-- C10. Placeholder names are compared case-sensitively against the
uppercased declared set: when the whole translation is the declared
token in a different letter case, `computeErrors` reports both the
declared uppercase token as "not present" and the differently-cased
token found in the text as "invalid". -/
theorem c10_case_sensitive_holders (it : Item) (w : String)
    (hp : it.placeholders.isSome)
    (hH : holdersOf it = [upperS w])
    (hcase : w ≠ upperS w)
    (hne : w.data ≠ [])
    (hok : ∀ c ∈ w.data, c ≠ '$' ∧ isLineTerm c = false)
    (htr : (translatedOf it).data = '$' :: w.data ++ ['$']) :
    computeErrors it = [notPresentMsg (upperS w), invalidMsg w] := by
  have htrans : isTranslated it := by
    simp only [isTranslated, ne_eq, String.ext_iff, htr]
    simp
  rw [computeErrors_eq it hp htrans, hH]
  have hlen : (upperS w).data.length = w.data.length := by
    simp [upperS]
  have hnotincl : inclS (translatedOf it) (tokOf (upperS w)) = false := by
    by_contra hbe
    have hini : inclL (translatedOf it).data (tokOf (upperS w)).data = true := by
      revert hbe
      simp [inclS]
    have hdata : (tokOf (upperS w)).data = '$' :: (upperS w).data ++ ['$'] := by
      simp [tokOf]
    have hl : (tokOf (upperS w)).data.length = (translatedOf it).data.length := by
      rw [hdata, htr]
      simp [hlen]
    have heq := inclL_eq_of_length hini hl
    rw [hdata, htr] at heq
    have hwU : (upperS w).data = w.data := by
      have h1 := List.tail_eq_of_cons_eq heq
      exact List.append_cancel_right h1
    exact hcase (String.ext hwU.symm)
  have hscan : scanTokens (translatedOf it) = [w] := scanTokens_single w hne hok _ htr
  rw [hscan]
  simp [hnotincl, hcase]

/-- Closed instance of `c10_case_sensitive_holders`: declared name
`url` (uppercased to `URL`), translation `$url$`. -/
theorem c10_case_sensitive_holders_witness :
    computeErrors (itemURL "$url$") = [notPresentMsg "URL", invalidMsg "url"] := by
  have h := c10_case_sensitive_holders (itemURL "$url$") "url"
    (by decide) (by decide) (by decide) (by decide)
    (by decide) (by decide)
  simpa using h

/-- A list is a prefix of itself followed by anything. -/
theorem isPrefixOf_append_self (l t : List Char) : l.isPrefixOf (l ++ t) = true := by
  induction l with
  | nil => simp [List.isPrefixOf]
  | cons a as ih => simp [List.isPrefixOf, ih]

/-- A `replace` with a pattern that does not occur leaves the string
unchanged. -/
theorem replaceFirst_of_not_incl {l pat : List Char} (rep : List Char)
    (h : inclL l pat = false) : replaceFirst l pat rep = l := by
  induction l with
  | nil =>
    rw [inclL] at h
    rw [replaceFirst.eq_def]
    simp only [Bool.or_eq_false_iff] at h
    simp [h.1]
  | cons c cs ih =>
    rw [inclL] at h
    simp only [Bool.or_eq_false_iff] at h
    rw [replaceFirst.eq_def]
    simp [h.1, ih h.2]

/-- A `replace` with a string pattern rewrites exactly the first
occurrence: if the text splits as `pre ++ pat ++ suf` and no occurrence
of `pat` starts inside `pre`, the result is `pre ++ rep ++ suf`. -/
theorem replaceFirst_first_occurrence (pat rep : List Char) :
    ∀ (pre : List Char) (l suf : List Char), l = pre ++ pat ++ suf →
      (∀ i, i < pre.length → pat.isPrefixOf (l.drop i) = false) →
      replaceFirst l pat rep = pre ++ rep ++ suf := by
  intro pre
  induction pre with
  | nil =>
    intro l suf hl _
    simp only [List.nil_append] at hl ⊢
    subst hl
    rw [replaceFirst.eq_def]
    simp [isPrefixOf_append_self, List.drop_left]
  | cons c pre' ih =>
    intro l suf hl hno
    have h0 : pat.isPrefixOf l = false := by
      have := hno 0 (by simp)
      simpa using this
    subst hl
    simp only [List.cons_append] at h0
    have hrec := ih (pre' ++ pat ++ suf) suf rfl (by
      intro i hi
      have := hno (i + 1) (by simpa using Nat.succ_lt_succ hi)
      simpa using this)
    rw [replaceFirst.eq_def, if_neg (by
      simp only [List.cons_append]
      rw [h0]
      simp)]
    show c :: replaceFirst (pre' ++ pat ++ suf) pat rep = c :: pre' ++ rep ++ suf
    rw [hrec]
    simp

/-- C5. The normalized translated text — the single `translated`
accessor every consumer reads — is the raw field value with leading and
trailing whitespace trimmed and the first occurrence of the literal
`"..."` replaced by the single ellipsis character: it is what
`isTranslated`, `isUnchanged`, validation and serialization all use,
it equals the trimmed input when `"..."` does not occur in it, and when
the trimmed input splits as `pre ++ "..." ++ suf` around the first
occurrence the result is `pre ++ "…" ++ suf`. -/
theorem c5_normalized_translation :
    (∀ it : Item, translatedOf it = normalizeS it.raw) ∧
    (∀ it : Item, isTranslated it ↔ normalizeS it.raw ≠ "") ∧
    (∀ it : Item, isUnchanged it ↔ it.message = normalizeS it.raw) ∧
    (∀ it : Item, (itemToJSON it).message = normalizeS it.raw) ∧
    (∀ s : String, inclL (trimS s).data dots = false → normalizeS s = trimS s) ∧
    (∀ (s : String) (pre suf : List Char),
      (trimS s).data = pre ++ dots ++ suf →
      (∀ i, i < pre.length → dots.isPrefixOf ((trimS s).data.drop i) = false) →
      (normalizeS s).data = pre ++ ell ++ suf) := by
  refine ⟨fun it => rfl, ?_, ?_, fun it => rfl, ?_, ?_⟩
  · intro it
    simp [isTranslated, translatedOf]
  · intro it
    simp [isUnchanged, translatedOf]
  · intro s h
    have : normalizeL s.data = trimL s.data := by
      rw [normalizeL]
      exact replaceFirst_of_not_incl ell h
    simp only [normalizeS, trimS, this]
  · intro s pre suf hsplit hno
    have : normalizeL s.data = pre ++ ell ++ suf := by
      rw [normalizeL]
      exact replaceFirst_first_occurrence dots ell pre (trimL s.data) suf hsplit hno
    simpa [normalizeS] using this

/-- Closed instance of `c5_normalized_translation`: the input
`" a...b... "` trims to `a...b...` and only its first `"..."` becomes
an ellipsis. -/
theorem c5_normalized_translation_witness :
    (normalizeS " a...b... ").data = "a".data ++ ell ++ "b...".data :=
  c5_normalized_translation.2.2.2.2.2 " a...b... " "a".data "b...".data
    (by decide) (by decide)

/-- C7 counterexample. The claim fails on the code: `validate` returns
early for an untranslated item *without* resetting `this.errors`, so
revalidating after the user clears a previously invalid translation
shows 🤚 (Untouched) but keeps the stale error count 1 instead of 0. -/
theorem c7_untranslated_validation_counterexample :
    ¬ isTranslated { validate (itemURL "hi") with raw := "" } ∧
    (validate { validate (itemURL "hi") with raw := "" }).status = .untouched ∧
    (validate { validate (itemURL "hi") with raw := "" }).errors = 1 ∧
    (validate { validate (itemURL "hi") with raw := "" }).errors ≠ 0 := by
  decide

/-- C7 amended. Validating an untranslated entry always puts it in
state Untouched but leaves `errorCount` at its previous value; the
value is 0 for a freshly constructed entry (the constructor initializes
`this.errors = 0`), and only a revalidation after clearing a previously
invalid translation keeps a stale nonzero count. -/
theorem c7_untranslated_validation :
    (∀ it : Item, ¬ isTranslated it →
      (validate it).status = .untouched ∧ (validate it).errors = it.errors) ∧
    (∀ p : String × EntryData, ¬ isTranslated (mkItem p) →
      (validate (mkItem p)).status = .untouched ∧ (validate (mkItem p)).errors = 0) := by
  have base : ∀ it : Item, ¬ isTranslated it →
      (validate it).status = .untouched ∧ (validate it).errors = it.errors := by
    intro it h
    simp [validate, h]
  refine ⟨base, fun p h => ?_⟩
  obtain ⟨h1, h2⟩ := base (mkItem p) h
  exact ⟨h1, by rw [h2]; simp [mkItem]⟩

/-- Unfolding `List.lookup` on a cons cell, phrased with propositional equality. -/
theorem lookup_cons {β : Type} (k : String) (v : β) (es : List (String × β)) (a : String) :
    ((k, v) :: es).lookup a = if a = k then some v else es.lookup a := by
  by_cases h : a = k
  · simp [List.lookup, h]
  · have hb : (a == k) = false := by simp [h]
    simp [List.lookup, hb, h]

/-- A key outside the key list looks up to nothing. -/
theorem lookup_eq_none_of_not_mem {β : Type} (l : List (String × β)) (id : String)
    (h : id ∉ l.map Prod.fst) : l.lookup id = none := by
  induction l with
  | nil => simp [List.lookup]
  | cons q es ih =>
    obtain ⟨k, v⟩ := q
    simp only [List.map_cons, List.mem_cons, not_or] at h
    rw [lookup_cons, if_neg h.1, ih h.2]

/-- With duplicate-free keys, membership determines the lookup result. -/
theorem lookup_of_mem_nodup {β : Type} (l : List (String × β))
    (hnd : (l.map Prod.fst).Nodup) (k : String) (v : β) (h : (k, v) ∈ l) :
    l.lookup k = some v := by
  induction l with
  | nil => simp at h
  | cons q es ih =>
    obtain ⟨k', v'⟩ := q
    simp only [List.map_cons, List.nodup_cons] at hnd
    rcases List.mem_cons.1 h with h1 | h1
    · injection h1 with hk hv
      rw [lookup_cons, if_pos hk, hv]
    · have hne : k ≠ k' := by
        intro hkk
        exact hnd.1 (hkk ▸ (List.mem_map.2 ⟨(k, v), h1, rfl⟩))
      rw [lookup_cons, if_neg hne, ih hnd.2 h1]

/-- Updating via `setMT` never changes the key sequence. -/
theorem setMT_map_fst (b : List (String × EntryData)) (id m : String) :
    (setMT b id m).map Prod.fst = b.map Prod.fst := by
  induction b with
  | nil => rfl
  | cons q es ih =>
    simp only [setMT, List.map_cons] at ih ⊢
    rw [ih]
    by_cases h : q.1 = id <;> simp [h]

/-- Unfolding `setMT` over a cons cell. -/
theorem setMT_cons (k : String) (v : EntryData) (es : List (String × EntryData))
    (id m : String) :
    setMT ((k, v) :: es) id m
      = (if k = id then (k, { v with messageTranslated := some m }) else (k, v))
          :: setMT es id m := by
  by_cases h : k = id <;> simp [setMT, h]

/-- Updating via `setMT` rewrites the looked-up entry for its own key. -/
theorem setMT_lookup_self (b : List (String × EntryData)) (id m : String) :
    (setMT b id m).lookup id
      = (b.lookup id).map (fun e => { e with messageTranslated := some m }) := by
  induction b with
  | nil => simp [setMT, List.lookup]
  | cons q es ih =>
    obtain ⟨k, v⟩ := q
    rw [setMT_cons]
    by_cases h : k = id
    · rw [if_pos h, lookup_cons, lookup_cons, if_pos h.symm, if_pos h.symm]
      rfl
    · rw [if_neg h, lookup_cons, lookup_cons,
        if_neg (fun hc => h hc.symm), if_neg (fun hc => h hc.symm)]
      exact ih

/-- Updating via `setMT` leaves every other key's lookup unchanged. -/
theorem setMT_lookup_ne (b : List (String × EntryData)) (id m id' : String)
    (hne : id' ≠ id) : (setMT b id m).lookup id' = b.lookup id' := by
  induction b with
  | nil => simp [setMT, List.lookup]
  | cons q es ih =>
    obtain ⟨k, v⟩ := q
    rw [setMT_cons]
    by_cases h : k = id
    · have h2 : ¬ id' = k := fun hc => hne (hc.trans h)
      rw [if_pos h, lookup_cons, lookup_cons, if_neg h2, if_neg h2]
      exact ih
    · rw [if_neg h, lookup_cons, lookup_cons]
      by_cases h2 : id' = k
      · rw [if_pos h2, if_pos h2]
      · rw [if_neg h2, if_neg h2]
        exact ih

/-- One merge iteration never changes the key sequence. -/
theorem mergeStep_map_fst (b : List (String × EntryData)) (p : String × WorkEntry) :
    (mergeStep b p).map Prod.fst = b.map Prod.fst := by
  rw [mergeStep]
  cases hbk : b.lookup p.1 with
  | none => rfl
  | some e =>
    cases hm : p.2.message with
    | none => rfl
    | some m =>
      by_cases h : m = ""
      · simp [h]
      · simp [h, setMT_map_fst]

/-- One merge iteration leaves every other key's lookup unchanged. -/
theorem mergeStep_lookup_ne (b : List (String × EntryData)) (p : String × WorkEntry)
    (id : String) (hne : id ≠ p.1) : (mergeStep b p).lookup id = b.lookup id := by
  rw [mergeStep]
  cases hbk : b.lookup p.1 with
  | none => rfl
  | some e =>
    cases hm : p.2.message with
    | none => rfl
    | some m =>
      by_cases h : m = ""
      · simp [h]
      · simp [h, setMT_lookup_ne b p.1 m id hne]

/-- A falsy work message makes the merge iteration a no-op. -/
theorem mergeStep_falsy (b : List (String × EntryData)) (p : String × WorkEntry)
    (h : p.2.truthyMessage = false) : mergeStep b p = b := by
  rw [mergeStep]
  cases hbk : b.lookup p.1 with
  | none => rfl
  | some e =>
    cases hm : p.2.message with
    | none => rfl
    | some m =>
      have hme : m = "" := by
        obtain ⟨k, w⟩ := p
        obtain ⟨wm⟩ := w
        simp only at hm
        subst hm
        simpa [WorkEntry.truthyMessage] using h
      simp [hme]

/-- A truthy work message for an existing base key seeds that entry. -/
theorem mergeStep_seeds (b : List (String × EntryData)) (p : String × WorkEntry)
    (e : EntryData) (m : String) (hb : b.lookup p.1 = some e)
    (hm : p.2.message = some m) (hne : m ≠ "") :
    (mergeStep b p).lookup p.1 = some { e with messageTranslated := some m } := by
  rw [mergeStep, hb, hm]
  show (if m = "" then b else setMT b p.1 m).lookup p.1 = _
  rw [if_neg hne, setMT_lookup_self, hb]
  rfl

/-- The merge never changes the key sequence: ids only in the work
snapshot produce no entry, and no base id is dropped. -/
theorem mergeWork_map_fst (work : List (String × WorkEntry)) :
    ∀ base, (mergeWork base work).map Prod.fst = base.map Prod.fst := by
  induction work with
  | nil => intro base; rfl
  | cons p w ih =>
    intro base
    show (mergeWork (mergeStep base p) w).map Prod.fst = base.map Prod.fst
    rw [ih (mergeStep base p), mergeStep_map_fst]

/-- Ids absent from the work snapshot keep their base entry. -/
theorem mergeWork_lookup_of_none (work : List (String × WorkEntry)) :
    ∀ base id, work.lookup id = none →
      (mergeWork base work).lookup id = base.lookup id := by
  induction work with
  | nil => intro base id _; rfl
  | cons p w ih =>
    intro base id h
    obtain ⟨k, wv⟩ := p
    rw [lookup_cons] at h
    by_cases hk : id = k
    · rw [if_pos hk] at h
      exact absurd h (by simp)
    · rw [if_neg hk] at h
      show (mergeWork (mergeStep base (k, wv)) w).lookup id = base.lookup id
      rw [ih (mergeStep base (k, wv)) id h, mergeStep_lookup_ne base (k, wv) id hk]

/-- Ids whose work entry has a falsy message keep their base entry. -/
theorem mergeWork_unseeded (work : List (String × WorkEntry)) :
    ∀ base id, (work.map Prod.fst).Nodup →
      (∀ w, work.lookup id = some w → w.truthyMessage = false) →
      (mergeWork base work).lookup id = base.lookup id := by
  induction work with
  | nil => intro base id _ _; rfl
  | cons p w ih =>
    intro base id hnd hfalsy
    obtain ⟨k, wv⟩ := p
    simp only [List.map_cons, List.nodup_cons] at hnd
    by_cases hk : id = k
    · have hf : wv.truthyMessage = false := by
        apply hfalsy
        rw [lookup_cons, if_pos hk]
      show (mergeWork (mergeStep base (k, wv)) w).lookup id = base.lookup id
      rw [mergeStep_falsy base (k, wv) hf]
      apply mergeWork_lookup_of_none
      apply lookup_eq_none_of_not_mem
      rw [hk]
      exact hnd.1
    · show (mergeWork (mergeStep base (k, wv)) w).lookup id = base.lookup id
      rw [ih (mergeStep base (k, wv)) id hnd.2 (by
        intro w' hw'
        apply hfalsy
        rw [lookup_cons, if_neg hk]
        exact hw')]
      exact mergeStep_lookup_ne base (k, wv) id hk

/-- Ids in both mappings with a truthy work message get seeded. -/
theorem mergeWork_seeds (work : List (String × WorkEntry)) :
    ∀ base id e w m, (work.map Prod.fst).Nodup →
      base.lookup id = some e → work.lookup id = some w → w.message = some m → m ≠ "" →
      (mergeWork base work).lookup id = some { e with messageTranslated := some m } := by
  induction work with
  | nil =>
    intro base id e w m _ _ hw _ _
    exact absurd hw (by simp [List.lookup])
  | cons p w' ih =>
    intro base id e wv m hnd hb hw hwm hne
    obtain ⟨k, pw⟩ := p
    simp only [List.map_cons, List.nodup_cons] at hnd
    rw [lookup_cons] at hw
    by_cases hk : id = k
    · rw [if_pos hk] at hw
      injection hw with hw
      subst hw
      show (mergeWork (mergeStep base (k, pw)) w').lookup id = _
      rw [mergeWork_lookup_of_none w' (mergeStep base (k, pw)) id
        (lookup_eq_none_of_not_mem w' id (hk ▸ hnd.1))]
      have := mergeStep_seeds base (k, pw) e m (hk ▸ hb) hwm hne
      simpa [hk] using this
    · rw [if_neg hk] at hw
      show (mergeWork (mergeStep base (k, pw)) w').lookup id = _
      exact ih (mergeStep base (k, pw)) id e wv m hnd.2
        ((mergeStep_lookup_ne base (k, pw) id hk).trans hb) hw hwm hne

/-- C3. The merge step seeds `base[id].messageTranslated` with
`work[id].message` exactly for the ids present in both mappings whose
work message is non-empty; ids only in the work snapshot create no
entry, base ids absent from the work snapshot (or with a falsy work
message) are unchanged, and the concrete example
`{a, b} ⋈ {a: t1, c: t2}` seeds `a`, keeps `b` unseeded and drops `c`. -/
theorem c3_merge_work_into_base :
    (∀ (base : List (String × EntryData)) (work : List (String × WorkEntry)) id e w m,
      (work.map Prod.fst).Nodup →
      base.lookup id = some e → work.lookup id = some w → w.message = some m → m ≠ "" →
      (mergeWork base work).lookup id = some { e with messageTranslated := some m }) ∧
    (∀ (base : List (String × EntryData)) (work : List (String × WorkEntry)) id,
      (work.map Prod.fst).Nodup →
      (∀ w, work.lookup id = some w → w.truthyMessage = false) →
      (mergeWork base work).lookup id = base.lookup id) ∧
    (∀ (base : List (String × EntryData)) (work : List (String × WorkEntry)),
      (mergeWork base work).map Prod.fst = base.map Prod.fst) ∧
    mergeWork
      [("a", ⟨"msg1", none, none, none⟩), ("b", ⟨"msg2", none, none, none⟩)]
      [("a", ⟨some "t1"⟩), ("c", ⟨some "t2"⟩)]
      = [("a", ⟨"msg1", none, none, some "t1"⟩), ("b", ⟨"msg2", none, none, none⟩)] :=
  ⟨fun base work id e w m hnd hb hw hwm hne => mergeWork_seeds work base id e w m hnd hb hw hwm hne,
   fun base work id hnd hf => mergeWork_unseeded work base id hnd hf,
   fun base work => mergeWork_map_fst work base,
   by decide⟩

/-- Closed instance of `c3_merge_work_into_base` on the example data:
`a` is seeded with `t1` and `b` keeps its unseeded entry. -/
theorem c3_merge_work_into_base_witness :
    (mergeWork
      [("a", ⟨"msg1", none, none, none⟩), ("b", ⟨"msg2", none, none, none⟩)]
      [("a", ⟨some "t1"⟩), ("c", ⟨some "t2"⟩)]).lookup "a"
      = some ⟨"msg1", none, none, some "t1"⟩ ∧
    (mergeWork
      [("a", ⟨"msg1", none, none, none⟩), ("b", ⟨"msg2", none, none, none⟩)]
      [("a", ⟨some "t1"⟩), ("c", ⟨some "t2"⟩)]).lookup "b"
      = some ⟨"msg2", none, none, none⟩ :=
  ⟨c3_merge_work_into_base.1
      [("a", ⟨"msg1", none, none, none⟩), ("b", ⟨"msg2", none, none, none⟩)]
      [("a", ⟨some "t1"⟩), ("c", ⟨some "t2"⟩)]
      "a" ⟨"msg1", none, none, none⟩ ⟨some "t1"⟩ "t1"
      (by decide) (by decide) (by decide) (by decide) (by decide),
   c3_merge_work_into_base.2.1
      [("a", ⟨"msg1", none, none, none⟩), ("b", ⟨"msg2", none, none, none⟩)]
      [("a", ⟨some "t1"⟩), ("c", ⟨some "t2"⟩)]
      "b" (by decide) (by decide) |>.trans (by decide)⟩

/-- The state of a freshly constructed `Locale` (lines 167–191): the
items are built and validated, then `this.update()` schedules the first
aggregate recompute. -/
def freshLoc (base : List (String × EntryData)) : LocState :=
  callUpdate { items := buildLocale base, timer := none, pendingTimeouts := 0, effects := [] }

/-- While a callback is pending, further debounced calls only replace
the stored arguments. -/
theorem debCall_foldl_pending {α : Type} (as : List α) :
    ∀ (s : DebSt α) (x : α), s.timer = some x →
      as.foldl debCall s
        = { timer := some (as.getLastD x), scheduled := s.scheduled, runs := s.runs } := by
  induction as with
  | nil =>
    intro s x h
    rw [List.foldl_nil]
    show s = { timer := some x, scheduled := s.scheduled, runs := s.runs }
    rw [← h]
  | cons a as ih =>
    intro s x h
    have hstep : debCall s a = { s with timer := some a } := by
      rw [debCall, h]
    rw [List.foldl_cons, hstep, ih { s with timer := some a } a rfl, List.getLastD_cons]

/-- A burst of edits while a callback is already pending leaves the
timer and effect log alone and only accumulates the item edits. -/
theorem editStep_foldl_pending (edits : List (Nat × String)) :
    ∀ st : LocState, st.timer = some () →
      (edits.foldl editStep st).timer = some () ∧
      (edits.foldl editStep st).pendingTimeouts = st.pendingTimeouts ∧
      (edits.foldl editStep st).effects = st.effects ∧
      (edits.foldl editStep st).items = edits.foldl editItem st.items := by
  induction edits with
  | nil => intro st h; exact ⟨h, rfl, rfl, rfl⟩
  | cons e edits ih =>
    intro st h
    have hstep : editStep st e
        = { st with items := editItem st.items e, timer := some () } := by
      rw [editStep]
      by_cases hn : normalizeS e.2 ≠ ""
      · rw [if_pos hn, callUpdate, h]
      · rw [if_neg hn]
        rw [show st.timer = some () from h]
    rw [List.foldl_cons, List.foldl_cons, hstep]
    exact ih _ rfl

/-- C2. A burst of `N ≥ 1` synchronous `updated()` notifications before
the event loop yields schedules exactly one deferred callback: the
generic debounce keeps one timeout and stores the arguments of the last
call, which the single execution of the wrapped function receives; on
the catalog, a burst whose first edit notifies performs no effect
during the burst, increments the queued-callback count by exactly one,
and the one deferred `update` then persists and renders the summary of
the items as edited by the whole burst. -/
theorem c2_burst_coalescing :
    (∀ (α : Type) (s : DebSt α) (a : α) (as : List α), s.timer = none →
      ((a :: as).foldl debCall s).timer = some (as.getLastD a) ∧
      ((a :: as).foldl debCall s).scheduled = s.scheduled + 1 ∧
      ((a :: as).foldl debCall s).runs = s.runs ∧
      debFire ((a :: as).foldl debCall s)
        = { timer := none, scheduled := s.scheduled, runs := s.runs ++ [as.getLastD a] }) ∧
    (∀ (st : LocState) (e : Nat × String) (edits : List (Nat × String)),
      st.timer = none → normalizeS e.2 ≠ "" →
      ((e :: edits).foldl editStep st).pendingTimeouts = st.pendingTimeouts + 1 ∧
      ((e :: edits).foldl editStep st).effects = st.effects ∧
      ((e :: edits).foldl editStep st).items = (e :: edits).foldl editItem st.items ∧
      fireTimeout true ((e :: edits).foldl editStep st)
        = {
            items := (e :: edits).foldl editItem st.items
            timer := none
            pendingTimeouts := st.pendingTimeouts
            effects := st.effects
              ++ [.persisted (localeToJSON ((e :: edits).foldl editItem st.items)),
                  .renderedStatus (summaryOf ((e :: edits).foldl editItem st.items))] }) := by
  constructor
  · intro α s a as h
    have hstep : debCall s a
        = { timer := some a, scheduled := s.scheduled + 1, runs := s.runs } := by
      rw [debCall, h]
    rw [List.foldl_cons, hstep, debCall_foldl_pending as _ a rfl]
    refine ⟨rfl, rfl, rfl, ?_⟩
    rw [debFire]
    simp
  · intro st e edits h hn
    have hstep : editStep st e
        = { st with
              items := editItem st.items e
              timer := some ()
              pendingTimeouts := st.pendingTimeouts + 1 } := by
      rw [editStep, if_pos hn, callUpdate, h]
    obtain ⟨h1, h2, h3, h4⟩ := editStep_foldl_pending edits
      { st with
          items := editItem st.items e
          timer := some ()
          pendingTimeouts := st.pendingTimeouts + 1 } rfl
    rw [List.foldl_cons, List.foldl_cons, hstep]
    refine ⟨by rw [h2], by rw [h3], by rw [h4], ?_⟩
    rw [fireTimeout, h1]
    simp [h2, h3, h4]

/-- Closed instance of `c2_burst_coalescing`: three debounced calls
coalesce into one run with the last argument, and a two-edit burst on a
one-item catalog fires exactly one persist-and-render of the final
items. -/
theorem c2_burst_coalescing_witness :
    ((⟨none, 0, []⟩ : DebSt Nat).timer = none ∧
      debFire ([1, 2, 3].foldl debCall (⟨none, 0, []⟩ : DebSt Nat))
        = { timer := none, scheduled := 0, runs := [[2, 3].getLastD 1] }) ∧
    ((⟨[mkItem ("a", ⟨"m", none, none, none⟩)], none, 0, []⟩ : LocState).timer = none ∧
      normalizeS "world" ≠ "" ∧
      fireTimeout true ([((0 : Nat), "hello"), (0, "world")].foldl editStep
          (⟨[mkItem ("a", ⟨"m", none, none, none⟩)], none, 0, []⟩ : LocState))
        = {
            items := [((0 : Nat), "hello"), (0, "world")].foldl editItem
              [mkItem ("a", ⟨"m", none, none, none⟩)]
            timer := none
            pendingTimeouts := 0
            effects := [.persisted (localeToJSON ([((0 : Nat), "hello"), (0, "world")].foldl editItem
                [mkItem ("a", ⟨"m", none, none, none⟩)])),
              .renderedStatus (summaryOf ([((0 : Nat), "hello"), (0, "world")].foldl editItem
                [mkItem ("a", ⟨"m", none, none, none⟩)]))] }) :=
  ⟨⟨rfl, (c2_burst_coalescing.1 Nat ⟨none, 0, []⟩ 1 [2, 3] rfl).2.2.2⟩,
   ⟨rfl, by decide,
    by
      have h := (c2_burst_coalescing.2
        (⟨[mkItem ("a", ⟨"m", none, none, none⟩)], none, 0, []⟩ : LocState)
        ((0 : Nat), "hello") [(0, "world")] rfl (by decide)).2.2.2
      simpa using h⟩⟩

/-- C8. A persistence-write failure during the deferred aggregate
recompute is caught and logged (modelled by the `loggedError` effect of
the `catch` arm), leaves the items untouched and clears the timer, so
the next notifying edit schedules a fresh callback whose successful
firing persists the then-current serialization — the write is retried,
and no exception escapes the update path. -/
theorem c8_persistence_failure_recovery (st : LocState) (h : st.timer = some ()) :
    (fireTimeout false st).items = st.items ∧
    (fireTimeout false st).effects = st.effects ++ [.loggedError] ∧
    (fireTimeout false st).timer = none ∧
    (∀ e : Nat × String, normalizeS e.2 ≠ "" →
      fireTimeout true (editStep (fireTimeout false st) e)
        = {
            items := editItem st.items e
            timer := none
            pendingTimeouts := (fireTimeout false st).pendingTimeouts
            effects := st.effects ++ [.loggedError,
              .persisted (localeToJSON (editItem st.items e)),
              .renderedStatus (summaryOf (editItem st.items e))] }) := by
  have hfail : fireTimeout false st
      = { st with
            timer := none
            pendingTimeouts := st.pendingTimeouts - 1
            effects := st.effects ++ [.loggedError] } := by
    rw [fireTimeout, h]
    rfl
  refine ⟨by rw [hfail], by rw [hfail], by rw [hfail], ?_⟩
  intro e hn
  have hstep : editStep (fireTimeout false st) e
      = {
          items := editItem st.items e
          timer := some ()
          pendingTimeouts := st.pendingTimeouts - 1 + 1
          effects := st.effects ++ [.loggedError] } := by
    rw [editStep, if_pos hn, hfail, callUpdate]
  rw [hstep, fireTimeout]
  simp [hfail, List.append_assoc]

/-- Closed instance of `c8_persistence_failure_recovery` on a one-item
catalog with a pending callback. -/
theorem c8_persistence_failure_recovery_witness :
    (⟨[mkItem ("a", ⟨"m", none, none, none⟩)], some (), 1, []⟩ : LocState).timer = some () ∧
    normalizeS "hello" ≠ "" ∧
    (fireTimeout false (⟨[mkItem ("a", ⟨"m", none, none, none⟩)], some (), 1, []⟩ : LocState)).effects
      = [Effect.loggedError] ∧
    fireTimeout true (editStep
        (fireTimeout false (⟨[mkItem ("a", ⟨"m", none, none, none⟩)], some (), 1, []⟩ : LocState))
        ((0 : Nat), "hello"))
      = {
          items := editItem [mkItem ("a", ⟨"m", none, none, none⟩)] ((0 : Nat), "hello")
          timer := none
          pendingTimeouts := (fireTimeout false
            (⟨[mkItem ("a", ⟨"m", none, none, none⟩)], some (), 1, []⟩ : LocState)).pendingTimeouts
          effects := [Effect.loggedError,
            .persisted (localeToJSON (editItem [mkItem ("a", ⟨"m", none, none, none⟩)] ((0 : Nat), "hello"))),
            .renderedStatus (summaryOf (editItem [mkItem ("a", ⟨"m", none, none, none⟩)] ((0 : Nat), "hello")))] } :=
  ⟨rfl, by decide,
   by
     have h := (c8_persistence_failure_recovery
       (⟨[mkItem ("a", ⟨"m", none, none, none⟩)], some (), 1, []⟩ : LocState) rfl).2.1
     simpa using h,
   by
     have h := (c8_persistence_failure_recovery
       (⟨[mkItem ("a", ⟨"m", none, none, none⟩)], some (), 1, []⟩ : LocState) rfl).2.2.2
       ((0 : Nat), "hello") (by decide)
     simpa using h⟩

/-- A previous catalog whose deferred recompute is still pending when
it is discarded. -/
def staleLoc : LocState :=
  { items := [validate (mkItem ("a", ⟨"m", none, none, some "t"⟩))]
    timer := some ()
    pendingTimeouts := 1
    effects := [] }

/-- C9 counterexample. The claim fails on the code: nothing guards the
deferred callback of a discarded `Locale` — its captured `timer` box is
still set, so firing it runs the old bound `update`, persisting the
stale serialization and re-rendering the stale status. -/
theorem c9_stale_callback_counterexample :
    (fireTimeout true staleLoc).effects ≠ staleLoc.effects ∧
    (fireTimeout true staleLoc).effects
      = [.persisted (localeToJSON staleLoc.items),
         .renderedStatus (summaryOf staleLoc.items)] := by
  decide

/-- C9 amended. A deferred callback still pending from a discarded
Catalog is *not* a no-op: firing it re-runs that Catalog's own
recompute, persisting and rendering its stale state (the code has no
liveness guard).  Each Catalog owns a separate debounce closure, so the
newly constructed Catalog is driven only by its own callback, whose
firing persists the new state. -/
theorem c9_stale_callback_fires (old : LocState) (h : old.timer = some ()) :
    fireTimeout true old
      = { old with
          timer := none
          pendingTimeouts := old.pendingTimeouts - 1
          effects := old.effects ++ [.persisted (localeToJSON old.items),
            .renderedStatus (summaryOf old.items)] } ∧
    (∀ base : List (String × EntryData),
      fireTimeout true (freshLoc base)
        = {
            items := buildLocale base
            timer := none
            pendingTimeouts := 0
            effects := [.persisted (localeToJSON (buildLocale base)),
              .renderedStatus (summaryOf (buildLocale base))] }) := by
  constructor
  · rw [fireTimeout, h]
    rfl
  · intro base
    rw [freshLoc, callUpdate]
    rw [fireTimeout]
    rfl

/-- Closed instance of `c9_stale_callback_fires` at the concrete stale
catalog. -/
theorem c9_stale_callback_fires_witness :
    staleLoc.timer = some () ∧
    fireTimeout true staleLoc
      = { staleLoc with
          timer := none
          pendingTimeouts := 0
          effects := [.persisted (localeToJSON staleLoc.items),
            .renderedStatus (summaryOf staleLoc.items)] } :=
  ⟨rfl, by
    have h := (c9_stale_callback_fires staleLoc rfl).1
    simpa using h⟩

/-- Insertion via `orderedInsert` adds its element, up to permutation. -/
theorem orderedInsert_perm (le : α → α → Bool) (a : α) :
    ∀ l : List α, (orderedInsert le a l).Perm (a :: l) := by
  intro l
  induction l with
  | nil => rfl
  | cons b l ih =>
    rw [orderedInsert]
    by_cases h : le b a = true
    · rw [if_pos h]
      exact (ih.cons b).trans (List.Perm.swap a b l)
    · rw [if_neg h]

/-- Folding `orderedInsert` over a list permutes the accumulator plus
the inserted elements. -/
theorem foldl_orderedInsert_perm (le : α → α → Bool) :
    ∀ (l acc : List α),
      (l.foldl (fun acc x => orderedInsert le x acc) acc).Perm (acc ++ l) := by
  intro l
  induction l with
  | nil => intro acc; simp
  | cons x xs ih =>
    intro acc
    rw [List.foldl_cons]
    refine (ih (orderedInsert le x acc)).trans ?_
    refine (List.Perm.append_right xs (orderedInsert_perm le x acc)).trans ?_
    exact List.perm_middle.symm

/-- The stable sorter emits a permutation of its input. -/
theorem insertionSort_perm (le : α → α → Bool) (l : List α) :
    (insertionSort le l).Perm l := by
  have h := foldl_orderedInsert_perm le l []
  simpa [insertionSort] using h

/-- Membership is preserved by the stable sorter. -/
theorem mem_insertionSort (le : α → α → Bool) (l : List α) (x : α) :
    x ∈ insertionSort le l ↔ x ∈ l :=
  (insertionSort_perm le l).mem_iff

/-- Inserting into a `le`-sorted list keeps it sorted, provided `le` is
total and transitive on the elements involved. -/
theorem orderedInsert_pairwise (le : α → α → Bool) (a : α) :
    ∀ l : List α,
      l.Pairwise (fun x y => le x y = true) →
      (∀ x ∈ a :: l, ∀ y ∈ a :: l, le x y = true ∨ le y x = true) →
      (∀ x ∈ a :: l, ∀ y ∈ a :: l, ∀ z ∈ a :: l,
        le x y = true → le y z = true → le x z = true) →
      (orderedInsert le a l).Pairwise (fun x y => le x y = true) := by
  intro l
  induction l with
  | nil => intro _ _ _; simp [orderedInsert]
  | cons b bs ih =>
    intro hs htot htrans
    have hsub : ∀ u, u ∈ a :: bs → u ∈ a :: b :: bs := by
      intro u hu
      rcases List.mem_cons.1 hu with rfl | hu
      · simp
      · simp [hu]
    rw [orderedInsert]
    by_cases h : le b a = true
    · rw [if_pos h]
      rw [List.pairwise_cons] at hs
      refine List.pairwise_cons.2 ⟨?_, ?_⟩
      · intro y hy
        rcases List.mem_cons.1 ((orderedInsert_perm le a bs).mem_iff.1 hy) with rfl | hybs
        · exact h
        · exact hs.1 y hybs
      · exact ih hs.2
          (fun x hx y hy => htot x (hsub x hx) y (hsub y hy))
          (fun x hx y hy z hz => htrans x (hsub x hx) y (hsub y hy) z (hsub z hz))
    · rw [if_neg h]
      have hab : le a b = true := by
        rcases htot a (by simp) b (by simp) with h1 | h1
        · exact h1
        · exact absurd h1 h
      refine List.pairwise_cons.2 ⟨?_, hs⟩
      intro y hy
      rcases List.mem_cons.1 hy with rfl | hybs
      · exact hab
      · have hby : le b y = true := (List.pairwise_cons.1 hs).1 y hybs
        exact htrans a (by simp) b (by simp) y (by simp [hybs]) hab hby

/-- Folding `orderedInsert` over a list sorts it, provided `le` is
total and transitive on all the elements involved. -/
theorem foldl_orderedInsert_pairwise (le : α → α → Bool) :
    ∀ l acc : List α,
      acc.Pairwise (fun x y => le x y = true) →
      (∀ x ∈ acc ++ l, ∀ y ∈ acc ++ l, le x y = true ∨ le y x = true) →
      (∀ x ∈ acc ++ l, ∀ y ∈ acc ++ l, ∀ z ∈ acc ++ l,
        le x y = true → le y z = true → le x z = true) →
      (l.foldl (fun acc x => orderedInsert le x acc) acc).Pairwise
        (fun x y => le x y = true) := by
  intro l
  induction l with
  | nil => intro acc hacc _ _; simpa using hacc
  | cons x xs ih =>
    intro acc hacc htot htrans
    rw [List.foldl_cons]
    have hsub2 : ∀ u, u ∈ x :: acc → u ∈ acc ++ x :: xs := by
      intro u hu
      rcases List.mem_cons.1 hu with rfl | hu
      · simp
      · simp [hu]
    have hsub : ∀ u, u ∈ orderedInsert le x acc ++ xs → u ∈ acc ++ x :: xs := by
      intro u hu
      rcases List.mem_append.1 hu with hu | hu
      · exact hsub2 u ((orderedInsert_perm le x acc).mem_iff.1 hu)
      · simp [hu]
    refine ih (orderedInsert le x acc) ?_
      (fun u hu v hv => htot u (hsub u hu) v (hsub v hv))
      (fun u hu v hv w hw => htrans u (hsub u hu) v (hsub v hv) w (hsub w hw))
    exact orderedInsert_pairwise le x acc hacc
      (fun u hu v hv => htot u (hsub2 u hu) v (hsub2 v hv))
      (fun u hu v hv w hw => htrans u (hsub2 u hu) v (hsub2 v hv) w (hsub2 w hw))

/-- The stable sorter sorts, provided `le` is total and transitive on
the list's elements. -/
theorem insertionSort_pairwise (le : α → α → Bool) (l : List α)
    (htot : ∀ x ∈ l, ∀ y ∈ l, le x y = true ∨ le y x = true)
    (htrans : ∀ x ∈ l, ∀ y ∈ l, ∀ z ∈ l,
      le x y = true → le y z = true → le x z = true) :
    (insertionSort le l).Pairwise (fun x y => le x y = true) := by
  refine foldl_orderedInsert_pairwise le l [] (by simp) ?_ ?_
  · simpa using htot
  · simpa using htrans

/-- Two sorted permutations of each other are equal when `le` is
antisymmetric on their elements. -/
theorem sorted_perm_unique (le : α → α → Bool) :
    ∀ l₁ l₂ : List α, l₁.Perm l₂ →
      l₁.Pairwise (fun x y => le x y = true) →
      l₂.Pairwise (fun x y => le x y = true) →
      (∀ x ∈ l₁, ∀ y ∈ l₁, le x y = true → le y x = true → x = y) →
      l₁ = l₂ := by
  intro l₁
  induction l₁ with
  | nil =>
    intro l₂ hp _ _ _
    exact (hp.nil_eq).symm ▸ rfl
  | cons a t₁ ih =>
    intro l₂ hp hs₁ hs₂ hanti
    cases l₂ with
    | nil => exact absurd hp.symm.nil_eq (by simp)
    | cons b t₂ =>
      have hab : a = b := by
        by_cases hgg : a = b
        · exact hgg
        have hbmem : b ∈ a :: t₁ := hp.symm.subset (by simp)
        have hamem : a ∈ b :: t₂ := hp.subset (by simp)
        have h1 : le a b = true := by
          rcases List.mem_cons.1 hbmem with h | h
          · exact absurd h.symm hgg
          · exact (List.pairwise_cons.1 hs₁).1 b h
        have h2 : le b a = true := by
          rcases List.mem_cons.1 hamem with h | h
          · exact absurd h hgg
          · exact (List.pairwise_cons.1 hs₂).1 a h
        exact hanti a (by simp) b (by simp [hbmem]) h1 h2
      subst hab
      have htails : t₁.Perm t₂ := hp.cons_inv
      rw [ih t₂ htails (List.pairwise_cons.1 hs₁).2 (List.pairwise_cons.1 hs₂).2
        (fun x hx y hy => hanti x (by simp [hx]) y (by simp [hy]))]

/-- A translated item used by the serialization examples. -/
def sItem (id : String) (raw : String) : Item :=
  { id := id
    message := "m"
    description := some "d"
    placeholders := none
    raw := raw
    errors := 0
    status := .unset }

/-- C4. Serialization emits exactly the translated entries — no
untranslated entry appears — keyed by id and mapped to
`{message := normalized translatedText, description, placeholders?}`
with the placeholders taken unchanged from the declaration; and the
emitted order is sorted by the export key (language-prefixed ids first,
then natural id order) and is independent of the internal storage
order whenever the export key is total, transitive and antisymmetric on
the translated entries. -/
theorem c4_serialization :
    (∀ items : List Item,
      (localeToJSON items).Perm
        ((items.filter isTranslated).map (fun i => (i.id, itemToJSON i)))) ∧
    (∀ (items : List Item) (p : String × ItemJSON), p ∈ localeToJSON items →
      ∃ i, i ∈ items ∧ isTranslated i ∧ p = (i.id, itemToJSON i)) ∧
    (∀ (items : List Item) (i : Item), i ∈ items → isTranslated i →
      (i.id, itemToJSON i) ∈ localeToJSON items) ∧
    (∀ it : Item, (itemToJSON it).message = translatedOf it ∧
      (itemToJSON it).description = it.description ∧
      (itemToJSON it).placeholders = it.placeholders) ∧
    (∀ items : List Item,
      (∀ x ∈ items.filter isTranslated, ∀ y ∈ items.filter isTranslated,
        cmpLE exportCmp x y = true ∨ cmpLE exportCmp y x = true) →
      (∀ x ∈ items.filter isTranslated, ∀ y ∈ items.filter isTranslated,
        ∀ z ∈ items.filter isTranslated,
        cmpLE exportCmp x y = true → cmpLE exportCmp y z = true → cmpLE exportCmp x z = true) →
      (localeToJSON items).Pairwise (fun p q => cmpLE exportIdCmp p.1 q.1 = true)) ∧
    (∀ items items' : List Item, items.Perm items' →
      (∀ x ∈ items.filter isTranslated, ∀ y ∈ items.filter isTranslated,
        cmpLE exportCmp x y = true ∨ cmpLE exportCmp y x = true) →
      (∀ x ∈ items.filter isTranslated, ∀ y ∈ items.filter isTranslated,
        ∀ z ∈ items.filter isTranslated,
        cmpLE exportCmp x y = true → cmpLE exportCmp y z = true → cmpLE exportCmp x z = true) →
      (∀ x ∈ items.filter isTranslated, ∀ y ∈ items.filter isTranslated,
        cmpLE exportCmp x y = true → cmpLE exportCmp y x = true → x = y) →
      localeToJSON items = localeToJSON items') := by
  refine ⟨?_, ?_, ?_, fun it => ⟨rfl, rfl, rfl⟩, ?_, ?_⟩
  · intro items
    exact (insertionSort_perm (cmpLE exportCmp) (items.filter isTranslated)).map _
  · intro items p hp
    obtain ⟨i, hi, rfl⟩ := List.mem_map.1 hp
    have hi2 := (mem_insertionSort (cmpLE exportCmp) _ i).1 hi
    exact ⟨i, (List.mem_filter.1 hi2).1, (List.mem_filter.1 hi2).2, rfl⟩
  · intro items i hi ht
    refine List.mem_map.2 ⟨i, ?_, rfl⟩
    exact (mem_insertionSort (cmpLE exportCmp) _ i).2 (List.mem_filter.2 ⟨hi, ht⟩)
  · intro items htot htrans
    have hs := insertionSort_pairwise (cmpLE exportCmp) (items.filter isTranslated) htot htrans
    rw [localeToJSON, List.pairwise_map]
    exact hs
  · intro items items' hperm htot htrans hanti
    have hfp : (items.filter isTranslated).Perm (items'.filter isTranslated) :=
      hperm.filter isTranslated
    have hmemt : ∀ u ∈ items'.filter isTranslated, u ∈ items.filter isTranslated :=
      fun u hu => hfp.symm.subset hu
    have hsort : insertionSort (cmpLE exportCmp) (items.filter isTranslated)
        = insertionSort (cmpLE exportCmp) (items'.filter isTranslated) := by
      refine sorted_perm_unique (cmpLE exportCmp) _ _
        (((insertionSort_perm _ _).trans hfp).trans (insertionSort_perm _ _).symm)
        (insertionSort_pairwise _ _ htot htrans)
        (insertionSort_pairwise _ _
          (fun x hx y hy => htot x (hmemt x hx) y (hmemt y hy))
          (fun x hx y hy z hz =>
            htrans x (hmemt x hx) y (hmemt y hy) z (hmemt z hz))) ?_
      intro x hx y hy
      exact hanti x ((mem_insertionSort _ _ x).1 hx) y ((mem_insertionSort _ _ y).1 hy)
    rw [localeToJSON, localeToJSON, hsort]

/-- Closed instance of `c4_serialization`: a four-item catalog (one
untranslated) serializes to the three translated entries in export
order — language-prefixed first, then natural id order — and a permuted
storage order yields the identical output. -/
theorem c4_serialization_witness :
    (localeToJSON [sItem "b2" "x", sItem "languageCode" "y", sItem "a" "", sItem "b10" "z"]).map Prod.fst
      = ["languageCode", "b2", "b10"] ∧
    localeToJSON [sItem "b2" "x", sItem "languageCode" "y", sItem "a" "", sItem "b10" "z"]
      = localeToJSON [sItem "b10" "z", sItem "a" "", sItem "languageCode" "y", sItem "b2" "x"] ∧
    (localeToJSON [sItem "b2" "x", sItem "languageCode" "y", sItem "a" "", sItem "b10" "z"]).Pairwise
      (fun p q => cmpLE exportIdCmp p.1 q.1 = true) :=
  ⟨by decide,
   c4_serialization.2.2.2.2.2
     [sItem "b2" "x", sItem "languageCode" "y", sItem "a" "", sItem "b10" "z"]
     [sItem "b10" "z", sItem "a" "", sItem "languageCode" "y", sItem "b2" "x"]
     (by decide) (by decide) (by decide) (by decide),
   c4_serialization.2.2.2.2.1
     [sItem "b2" "x", sItem "languageCode" "y", sItem "a" "", sItem "b10" "z"]
     (by decide) (by decide)⟩

/-- Dropping while a predicate holds is idempotent. -/
theorem dropWhile_dropWhile (p : α → Bool) (l : List α) :
    (l.dropWhile p).dropWhile p = l.dropWhile p := by
  induction l with
  | nil => rfl
  | cons c cs ih =>
    by_cases h : p c
    · simp [List.dropWhile_cons, h, ih]
    · simp [List.dropWhile_cons, h]

/-- If dropping changes nothing on a cons cell, its head fails the
predicate. -/
theorem head_not_of_dropWhile_eq (p : α → Bool) (c : α) (cs : List α)
    (h : (c :: cs).dropWhile p = c :: cs) : p c = false := by
  have h2 := List.dropWhile_eq_self_iff.1 h (by simp)
  simpa using h2

/-- JavaScript `trim` is idempotent. -/
theorem trimL_idem (l : List Char) : trimL (trimL l) = trimL l := by
  have hA : (l.dropWhile isWS).dropWhile isWS = l.dropWhile isWS :=
    dropWhile_dropWhile isWS l
  rw [trimL, trimL]
  set A := l.dropWhile isWS with hAdef
  set Y := (A.reverse.takeWhile isWS).reverse with hYdef
  set C := A.reverse.dropWhile isWS with hCdef
  have hsplit : A.reverse = A.reverse.takeWhile isWS ++ C :=
    (List.takeWhile_append_dropWhile isWS A.reverse).symm
  have hArev : A = C.reverse ++ Y := by
    conv_lhs => rw [← List.reverse_reverse A, hsplit]
    rw [List.reverse_append, hYdef]
  have hC1 : C.reverse.dropWhile isWS = C.reverse := by
    cases hCrev : C.reverse with
    | nil => rfl
    | cons c cr =>
      have hAeq : A = c :: (cr ++ Y) := by
        rw [hArev, hCrev]
        rfl
      have h2 : A.dropWhile isWS = A := hA
      rw [hAeq] at h2
      have hc := head_not_of_dropWhile_eq isWS c (cr ++ Y) h2
      rw [List.dropWhile_cons, if_neg (by simp [hc])]
  rw [hC1]
  have hC2 : C.dropWhile isWS = C := by
    rw [hCdef]
    exact dropWhile_dropWhile isWS A.reverse
  rw [List.reverse_reverse, hC2]

/-- String form of trim idempotence. -/
theorem trimS_idem (s : String) : trimS (trimS s) = trimS s := by
  simp only [trimS, trimL_idem]

/-- Normalizing an already-trimmed string normalizes the original. -/
theorem normalizeS_trimS (s : String) : normalizeS (trimS s) = normalizeS s := by
  simp only [normalizeS, normalizeL, trimS, trimL_idem]

/-- Validation never changes an item's identity. -/
theorem validate_id (it : Item) : (validate it).id = it.id := by
  simp only [validate]
  split_ifs <;> rfl

/-- Validation never changes the translation field. -/
theorem validate_raw (it : Item) : (validate it).raw = it.raw := by
  simp only [validate]
  split_ifs <;> rfl

/-- Every item of a built locale is the validation of an item built
from one of the base pairs. -/
theorem buildLocale_mem (base : List (String × EntryData)) (i : Item)
    (hi : i ∈ buildLocale base) : ∃ p ∈ base, i = validate (mkItem p) := by
  rw [buildLocale] at hi
  obtain ⟨j, hj, rfl⟩ := List.mem_map.1 hi
  obtain ⟨p, hp, rfl⟩ := List.mem_map.1 hj
  exact ⟨p, (mem_insertionSort _ _ p).1 hp, rfl⟩

/-- The exported keys are the translated items' ids, without
duplicates whenever the item ids are duplicate-free. -/
theorem localeToJSON_keys_nodup (items : List Item)
    (hnd : (items.map Item.id).Nodup) :
    ((localeToJSON items).map Prod.fst).Nodup := by
  have h1 : ((localeToJSON items).map Prod.fst).Perm
      ((items.filter isTranslated).map Item.id) := by
    have hp := (insertionSort_perm (cmpLE exportCmp) (items.filter isTranslated)).map Item.id
    rw [localeToJSON, List.map_map]
    exact hp
  refine h1.nodup_iff.2 ?_
  have hsub : ((items.filter isTranslated).map Item.id).Sublist (items.map Item.id) :=
    (List.filter_sublist items).map Item.id
  exact hnd.sublist hsub

/-- C6 counterexample data: a base entry whose seeded translation still
contains a `"..."` after one normalization pass. -/
def rtBase : List (String × EntryData) := [("a", ⟨"m", none, none, some "......"⟩)]

/-- C6 counterexample. Round-tripping is not the identity: the
translation `"......"` normalizes to `"…..."` (one replacement), is
exported as such, and re-ingesting applies the normalization again,
yielding `"……"`. -/
theorem c6_round_trip_counterexample :
    (buildLocale rtBase).map translatedOf = ["…..."] ∧
    ((buildLocale rtBase).map isTranslated).all (fun b => b) = true ∧
    (buildLocale (mergeWork rtBase
        ((localeToJSON (buildLocale rtBase)).map
          (fun q => (q.1, ⟨some q.2.message⟩))))).map translatedOf = ["……"] ∧
    ("……" : String) ≠ "…..." := by
  decide

/-- C6 amended. Re-ingesting an export as a work snapshot against the
same base reproduces, for every previously translated entry, the
*re-normalized* translated text `normalizeS t` — identical to the
original exactly when normalization is idempotent on it (in particular
whenever `t` contains no residual `"..."`); the original claim fails
only on texts that normalization rewrites again. -/
theorem c6_round_trip (base : List (String × EntryData)) (items : List Item)
    (hndB : (base.map Prod.fst).Nodup)
    (hndI : (items.map Item.id).Nodup)
    (hin : ∀ j ∈ items, ∃ e, base.lookup j.id = some e)
    (i : Item) (hi : i ∈ items) (ht : isTranslated i)
    (i' : Item)
    (hi' : i' ∈ buildLocale (mergeWork base
      ((localeToJSON items).map (fun q => (q.1, ⟨some q.2.message⟩)))))
    (hid : i'.id = i.id) :
    translatedOf i' = normalizeS (translatedOf i) ∧
    (normalizeS (translatedOf i) = translatedOf i →
      translatedOf i' = translatedOf i) := by
  obtain ⟨e, he⟩ := hin i hi
  set t := translatedOf i with htdef
  set work : List (String × WorkEntry) :=
    (localeToJSON items).map (fun q => (q.1, ⟨some q.2.message⟩)) with hworkdef
  have hwnd : (work.map Prod.fst).Nodup := by
    have : work.map Prod.fst = (localeToJSON items).map Prod.fst := by
      rw [hworkdef, List.map_map]
      rfl
    rw [this]
    exact localeToJSON_keys_nodup items hndI
  have hexp : (i.id, itemToJSON i) ∈ localeToJSON items := by
    refine List.mem_map.2 ⟨i, ?_, rfl⟩
    exact (mem_insertionSort (cmpLE exportCmp) _ i).2 (List.mem_filter.2 ⟨hi, ht⟩)
  have hwmem : (i.id, (⟨some t⟩ : WorkEntry)) ∈ work := by
    refine List.mem_map.2 ⟨(i.id, itemToJSON i), hexp, ?_⟩
    rfl
  have hwlookup : work.lookup i.id = some ⟨some t⟩ :=
    lookup_of_mem_nodup work hwnd i.id ⟨some t⟩ hwmem
  have htne : t ≠ "" := by
    simpa [isTranslated, htdef] using ht
  have hmerged : (mergeWork base work).lookup i.id
      = some { e with messageTranslated := some t } :=
    mergeWork_seeds work base i.id e ⟨some t⟩ t hwnd he hwlookup rfl htne
  obtain ⟨p, hp, hieq⟩ := buildLocale_mem _ i' hi'
  have hpid : p.1 = i.id := by
    rw [hieq, validate_id] at hid
    exact hid
  have hmnd : ((mergeWork base work).map Prod.fst).Nodup := by
    rw [mergeWork_map_fst]
    exact hndB
  have hplookup : (mergeWork base work).lookup p.1 = some p.2 :=
    lookup_of_mem_nodup _ hmnd p.1 p.2 hp
  have hpval : p.2 = { e with messageTranslated := some t } := by
    rw [hpid, hmerged] at hplookup
    injection hplookup with h
    exact h.symm
  have hraw : (mkItem p).raw = trimS t := by
    rw [mkItem]
    simp only [hpval]
    simp [htne]
  have hmain : translatedOf i' = normalizeS t := by
    rw [hieq]
    show normalizeS ((validate (mkItem p)).raw) = normalizeS t
    rw [validate_raw, hraw, normalizeS_trimS]
  exact ⟨hmain, fun hidem => by rw [hmain, hidem]⟩

/-- Closed instance of `c6_round_trip`: a translation with no residual
`"..."` survives the round trip unchanged. -/
theorem c6_round_trip_witness :
    translatedOf (validate (mkItem ("a", ⟨"m", none, none, some "hello"⟩))) = "hello" ∧
    (buildLocale (mergeWork [("a", ⟨"m", none, none, some "hello"⟩)]
        ((localeToJSON (buildLocale [("a", ⟨"m", none, none, some "hello"⟩)])).map
          (fun q => (q.1, ⟨some q.2.message⟩))))).map translatedOf = ["hello"] ∧
    translatedOf (validate (mkItem ("a",
        ⟨"m", none, none, some (translatedOf (validate (mkItem ("a", ⟨"m", none, none, some "hello"⟩))))⟩)))
      = translatedOf (validate (mkItem ("a", ⟨"m", none, none, some "hello"⟩))) := by
  refine ⟨by decide, by decide, ?_⟩
  have h := c6_round_trip
    [("a", ⟨"m", none, none, some "hello"⟩)]
    (buildLocale [("a", ⟨"m", none, none, some "hello"⟩)])
    (by decide) (by decide)
    (fun j hj => by
      have hj' : j = validate (mkItem ("a", ⟨"m", none, none, some "hello"⟩)) :=
        List.mem_singleton.1 hj
      exact ⟨⟨"m", none, none, some "hello"⟩, by rw [hj']; decide⟩)
    (validate (mkItem ("a", ⟨"m", none, none, some "hello"⟩)))
    (by decide) (by decide)
    (validate (mkItem ("a",
      ⟨"m", none, none, some (translatedOf (validate (mkItem ("a", ⟨"m", none, none, some "hello"⟩))))⟩)))
    (by decide) (by decide)
  exact h.2 (by decide)

/-- Closed instance of `c7_untranslated_validation`: a fresh entry with
no seeded translation validates to Untouched with error count 0. -/
theorem c7_untranslated_validation_witness :
    ¬ isTranslated (mkItem ("a", ⟨"msg1", none, none, none⟩)) ∧
    (validate (mkItem ("a", ⟨"msg1", none, none, none⟩))).status = .untouched ∧
    (validate (mkItem ("a", ⟨"msg1", none, none, none⟩))).errors = 0 :=
  ⟨by decide, c7_untranslated_validation.2 ("a", ⟨"msg1", none, none, none⟩) (by decide)⟩

end Translate
